import Mathlib

/-!
Verification of the Quaturn scene-graph engine against its specification.

The definitions below are a shallow embedding of the Rust source:
  * `Variant`, `SNode`     — the closed set of node types and the scene tree
                              (trait `Node` with `get_transform` / `get_children`,
                              `src/src/engine/game_context/node_manager.rs`);
  * `collectItems`          — `collect_items` from `src/src/lib.rs` (lines 467-490);
  * `traverseCameraPath`    — `traverse_camera_path` from `src/src/lib.rs` (lines 534-555);
  * `NodeTransform` and its setters — `src/src/engine/game_context/node_manager.rs`;
  * `applyTransform`        — the free function `apply_transform` in the same file;
  * `NodeManager.add` / `addShader` — same file (lines 287-303, 359-365);
  * `DirectionalLight`      — `src/src/nodes/directional_light.rs`.

The `+` operator on the engine's `NodeTransform` lives in the `components`
module, which is not part of the sources under verification; every theorem
about the traversals is therefore stated for an arbitrary composition
operator `add : α → α → α`, which in particular covers the engine's operator.
-/

namespace Quaturn

/-- The closed set of node variants of the engine
(`Camera3D`, `DirectionalLight`, `PointLight`, `Model`, `UI`, `Empty`). -/
inductive Variant where
  | camera3D
  | directionalLight
  | pointLight
  | model
  | ui
  | empty
deriving DecidableEq, Repr

/-- A scene-graph node: a name (the key under which it is stored in its
parent's map), a variant tag (standing for the concrete Rust type recovered
by `downcast_mut`), a local transform, the internal `MeshNode` transforms of
a `Model` (field `nodes: Vec<MeshNode>` of `Model`), and the named child
collection (`children`, a `HashMap<String, Box<dyn Node>>`; the list order
stands for the map's iteration order). -/
inductive SNode (α : Type) where
  | mk (name : String) (variant : Variant) (transform : α)
       (meshNodes : List α) (children : List (SNode α))
deriving Repr

namespace SNode

variable {α : Type}

/-- The node's name. -/
def name : SNode α → String
  | .mk n _ _ _ _ => n

/-- The node's variant tag. -/
def variant : SNode α → Variant
  | .mk _ v _ _ _ => v

/-- The node's local transform (`get_transform`). -/
def transform : SNode α → α
  | .mk _ _ t _ _ => t

/-- The internal mesh-node transforms of a `Model`. -/
def meshNodes : SNode α → List α
  | .mk _ _ _ ms _ => ms

/-- The node's children (`get_children_mut().get_all_mut()`). -/
def children : SNode α → List (SNode α)
  | .mk _ _ _ _ cs => cs

end SNode

variable {α : Type}

mutual

/-- Shallow embedding of `collect_items` (`src/src/lib.rs` 467-490):
compute `world = parent + local`, push the node if it downcasts to the
requested variant, then recurse into the children with `world`. -/
def collectItems (add : α → α → α) (tgt : Variant) :
    SNode α → α → List (SNode α × α)
  | .mk n v t ms cs, parent =>
    let world := add parent t
    (if v = tgt then [(.mk n v t ms cs, world)] else []) ++
      collectItemsList add tgt cs world

/-- The recursion of `collect_items` over the child collection. -/
def collectItemsList (add : α → α → α) (tgt : Variant) :
    List (SNode α) → α → List (SNode α × α)
  | [], _ => []
  | c :: cs, world => collectItems add tgt c world ++ collectItemsList add tgt cs world

end

mutual

/-- Specification-side pre-order enumeration of a scene tree: every node
paired with its position (path of child indices relative to the root of the
enumeration) and the accumulated transform, parent before children. -/
def preorderEnum (add : α → α → α) (parent : α) (pfx : List ℕ) :
    SNode α → List (List ℕ × SNode α × α)
  | .mk n v t ms cs =>
    (pfx, .mk n v t ms cs, add parent t) :: preorderEnumList add (add parent t) pfx 0 cs

/-- Pre-order enumeration of a forest, the `i`-th tree at position `pfx ++ [i]`. -/
def preorderEnumList (add : α → α → α) (parent : α) (pfx : List ℕ) (i : ℕ) :
    List (SNode α) → List (List ℕ × SNode α × α)
  | [] => []
  | c :: cs =>
    preorderEnum add parent (pfx ++ [i]) c ++ preorderEnumList add parent pfx (i + 1) cs

end

mutual

/-- The node stored at a path of child indices, if the path is valid. -/
def nodeAt : SNode α → List ℕ → Option (SNode α)
  | n, [] => some n
  | .mk _ _ _ _ cs, i :: p => nodeAtList cs i p

/-- Resolve the head index in a forest, then descend. -/
def nodeAtList : List (SNode α) → ℕ → List ℕ → Option (SNode α)
  | [], _, _ => none
  | c :: _, 0, p => nodeAt c p
  | _ :: cs, i + 1, p => nodeAtList cs i p

end

mutual

/-- The local transforms of the nodes met along a path, root-to-node
inclusive (meaningful on valid paths). -/
def localsAlong : SNode α → List ℕ → List α
  | n, [] => [n.transform]
  | .mk _ _ t _ cs, i :: p => t :: localsAlongList cs i p

/-- Forest version of `localsAlong`. -/
def localsAlongList : List (SNode α) → ℕ → List ℕ → List α
  | [], _, _ => []
  | c :: _, 0, p => localsAlong c p
  | _ :: cs, i + 1, p => localsAlongList cs i p

end

mutual

theorem collectItems_eq_filter (add : α → α → α) (tgt : Variant) :
    ∀ (s : SNode α) (parent : α) (pfx : List ℕ),
      collectItems add tgt s parent
        = ((preorderEnum add parent pfx s).filter
            (fun e => e.2.1.variant = tgt)).map (fun e => e.2)
  | .mk n v t ms cs, parent, pfx => by
    rw [collectItems, preorderEnum]
    rw [collectItemsList_eq_filter add tgt cs (add parent t) pfx 0]
    by_cases h : v = tgt <;>
      simp [h, SNode.variant, List.filter_cons]

theorem collectItemsList_eq_filter (add : α → α → α) (tgt : Variant) :
    ∀ (cs : List (SNode α)) (world : α) (pfx : List ℕ) (i : ℕ),
      collectItemsList add tgt cs world
        = ((preorderEnumList add world pfx i cs).filter
            (fun e => e.2.1.variant = tgt)).map (fun e => e.2)
  | [], _, _, _ => by
    rw [collectItemsList, preorderEnumList]; rfl
  | c :: cs, world, pfx, i => by
    rw [collectItemsList, preorderEnumList, List.filter_append, List.map_append,
      collectItems_eq_filter add tgt c world (pfx ++ [i]),
      collectItemsList_eq_filter add tgt cs world pfx (i + 1)]

end

mutual

theorem preorderEnum_path_ext (add : α → α → α) :
    ∀ (s : SNode α) (parent : α) (pfx : List ℕ),
      ∀ e ∈ preorderEnum add parent pfx s, ∃ q, e.1 = pfx ++ q
  | .mk n v t ms cs, parent, pfx => by
    rw [preorderEnum]
    intro e he
    rcases List.mem_cons.mp he with h | h
    · exact ⟨[], by simp [h]⟩
    · obtain ⟨j, q, _, hq⟩ :=
        preorderEnumList_path_ext add cs (add parent t) pfx 0 e h
      exact ⟨j :: q, hq⟩

theorem preorderEnumList_path_ext (add : α → α → α) :
    ∀ (cs : List (SNode α)) (world : α) (pfx : List ℕ) (i : ℕ),
      ∀ e ∈ preorderEnumList add world pfx i cs,
        ∃ j q, i ≤ j ∧ e.1 = pfx ++ j :: q
  | [], world, pfx, i => by
    rw [preorderEnumList]; intro e he; cases he
  | c :: cs, world, pfx, i => by
    rw [preorderEnumList]
    intro e he
    rcases List.mem_append.mp he with h | h
    · obtain ⟨q, hq⟩ := preorderEnum_path_ext add c world (pfx ++ [i]) e h
      exact ⟨i, q, le_refl i, by simpa using hq⟩
    · obtain ⟨j, q, hj, hq⟩ :=
        preorderEnumList_path_ext add cs world pfx (i + 1) e h
      exact ⟨j, q, by omega, hq⟩

end

mutual

theorem preorderEnum_count (add : α → α → α) :
    ∀ (s : SNode α) (parent : α) (pfx : List ℕ) (p : List ℕ),
      (preorderEnum add parent pfx s).countP (fun e => e.1 = pfx ++ p)
        = if (nodeAt s p).isSome then 1 else 0
  | .mk n v t ms cs, parent, pfx, [] => by
    rw [preorderEnum, List.countP_cons]
    have hz : (preorderEnumList add (add parent t) pfx 0 cs).countP
        (fun e => e.1 = pfx ++ ([] : List ℕ)) = 0 := by
      apply List.countP_eq_zero.mpr
      intro e he
      obtain ⟨j, q, _, hq⟩ :=
        preorderEnumList_path_ext add cs (add parent t) pfx 0 e he
      simp [hq]
    rw [hz]
    simp [nodeAt]
  | .mk n v t ms cs, parent, pfx, j :: q => by
    rw [preorderEnum, List.countP_cons]
    have hj : (j : ℕ) = 0 + j := by omega
    rw [hj, preorderEnumList_count add cs (add parent t) pfx 0 j q]
    simp [nodeAt]

theorem preorderEnumList_count (add : α → α → α) :
    ∀ (cs : List (SNode α)) (world : α) (pfx : List ℕ) (i j : ℕ) (q : List ℕ),
      (preorderEnumList add world pfx i cs).countP
          (fun e => e.1 = pfx ++ (i + j) :: q)
        = if (nodeAtList cs j q).isSome then 1 else 0
  | [], world, pfx, i, j, q => by
    rw [preorderEnumList, nodeAtList.eq_def]
    simp
  | c :: cs, world, pfx, i, 0, q => by
    rw [preorderEnumList, List.countP_append]
    have h1 : (preorderEnum add world (pfx ++ [i]) c).countP
        (fun e => e.1 = pfx ++ (i + 0) :: q)
          = if (nodeAt c q).isSome then 1 else 0 := by
      have h := preorderEnum_count add c world (pfx ++ [i]) q
      simpa [List.append_assoc] using h
    have h2 : (preorderEnumList add world pfx (i + 1) cs).countP
        (fun e => e.1 = pfx ++ (i + 0) :: q) = 0 := by
      apply List.countP_eq_zero.mpr
      intro e he
      obtain ⟨m, r, hm, hr⟩ :=
        preorderEnumList_path_ext add cs world pfx (i + 1) e he
      simp only [hr, decide_eq_true_eq]
      intro hcontra
      have := List.append_cancel_left hcontra
      simp at this
      omega
    rw [h1, h2, nodeAtList]
    simp
  | c :: cs, world, pfx, i, k + 1, q => by
    rw [preorderEnumList, List.countP_append]
    have h1 : (preorderEnum add world (pfx ++ [i]) c).countP
        (fun e => e.1 = pfx ++ (i + (k + 1)) :: q) = 0 := by
      apply List.countP_eq_zero.mpr
      intro e he
      obtain ⟨r, hr⟩ := preorderEnum_path_ext add c world (pfx ++ [i]) e he
      simp only [hr, List.append_assoc, List.singleton_append, decide_eq_true_eq]
      intro hcontra
      have := List.append_cancel_left hcontra
      simp at this
    have hsum : i + (k + 1) = (i + 1) + k := by omega
    rw [h1, hsum, preorderEnumList_count add cs world pfx (i + 1) k q, nodeAtList]
    simp

end

mutual

theorem preorderEnum_pairwise (add : α → α → α) :
    ∀ (s : SNode α) (parent : α) (pfx : List ℕ),
      ((preorderEnum add parent pfx s).map (fun e => e.1)).Pairwise
        (fun p q => ¬ q <+: p)
  | .mk n v t ms cs, parent, pfx => by
    rw [preorderEnum]
    simp only [List.map_cons, List.pairwise_cons]
    constructor
    · intro q hq
      simp only [List.mem_map] at hq
      obtain ⟨e, he, rfl⟩ := hq
      obtain ⟨j, r, _, hr⟩ :=
        preorderEnumList_path_ext add cs (add parent t) pfx 0 e he
      intro hpre
      rw [hr] at hpre
      have hlen := hpre.length_le
      simp at hlen
    · exact preorderEnumList_pairwise add cs (add parent t) pfx 0

theorem preorderEnumList_pairwise (add : α → α → α) :
    ∀ (cs : List (SNode α)) (world : α) (pfx : List ℕ) (i : ℕ),
      ((preorderEnumList add world pfx i cs).map (fun e => e.1)).Pairwise
        (fun p q => ¬ q <+: p)
  | [], world, pfx, i => by
    rw [preorderEnumList]; simp
  | c :: cs, world, pfx, i => by
    rw [preorderEnumList, List.map_append]
    apply List.pairwise_append.mpr
    refine ⟨preorderEnum_pairwise add c world (pfx ++ [i]),
            preorderEnumList_pairwise add cs world pfx (i + 1), ?_⟩
    intro a ha b hb
    simp only [List.mem_map] at ha hb
    obtain ⟨e1, he1, rfl⟩ := ha
    obtain ⟨e2, he2, rfl⟩ := hb
    obtain ⟨r1, hr1⟩ := preorderEnum_path_ext add c world (pfx ++ [i]) e1 he1
    obtain ⟨m, r2, hm, hr2⟩ :=
      preorderEnumList_path_ext add cs world pfx (i + 1) e2 he2
    rw [hr1, hr2]
    intro hpre
    rw [List.append_assoc, List.singleton_append,
      List.prefix_append_right_inj, List.cons_prefix_cons] at hpre
    omega

end

mutual

theorem preorderEnum_entries (add : α → α → α) :
    ∀ (s : SNode α) (parent : α) (pfx : List ℕ),
      ∀ e ∈ preorderEnum add parent pfx s,
        ∃ q, e.1 = pfx ++ q ∧ nodeAt s q = some e.2.1
          ∧ e.2.2 = (localsAlong s q).foldl add parent
  | .mk n v t ms cs, parent, pfx => by
    rw [preorderEnum]
    intro e he
    rcases List.mem_cons.mp he with h | h
    · refine ⟨[], ?_⟩
      rw [h]
      simp [nodeAt, localsAlong, SNode.transform]
    · obtain ⟨j, q, hq1, hq2, hq3⟩ :=
        preorderEnumList_entries add cs (add parent t) pfx 0 e h
      refine ⟨(0 + j) :: q, hq1, ?_, ?_⟩
      · rw [nodeAt]
        simpa using hq2
      · rw [localsAlong, List.foldl_cons]
        simpa using hq3

theorem preorderEnumList_entries (add : α → α → α) :
    ∀ (cs : List (SNode α)) (world : α) (pfx : List ℕ) (i : ℕ),
      ∀ e ∈ preorderEnumList add world pfx i cs,
        ∃ j q, e.1 = pfx ++ (i + j) :: q ∧ nodeAtList cs j q = some e.2.1
          ∧ e.2.2 = (localsAlongList cs j q).foldl add world
  | [], world, pfx, i => by
    rw [preorderEnumList]; intro e he; cases he
  | c :: cs, world, pfx, i => by
    rw [preorderEnumList]
    intro e he
    rcases List.mem_append.mp he with h | h
    · obtain ⟨q, hq1, hq2, hq3⟩ := preorderEnum_entries add c world (pfx ++ [i]) e h
      refine ⟨0, q, ?_, ?_, ?_⟩
      · rw [hq1]; simp
      · rw [nodeAtList]; exact hq2
      · rw [localsAlongList]; exact hq3
    · obtain ⟨j, q, hq1, hq2, hq3⟩ :=
        preorderEnumList_entries add cs world pfx (i + 1) e h
      refine ⟨j + 1, q, ?_, ?_, ?_⟩
      · rw [hq1]
        have : i + 1 + j = i + (j + 1) := by omega
        rw [this]
      · rw [nodeAtList]; exact hq2
      · rw [localsAlongList]; exact hq3

end

/-- **C1.** For every scene tree, `collect_items` visits every node exactly
once in depth-first pre-order — `preorderEnum` lists each valid tree position
exactly once, and a parent's position strictly precedes any of its
descendants' — and it returns exactly the nodes of the requested variant,
including occurrences nested under nodes of other variants at any depth, each
paired with the world transform obtained by composing (via the transform
addition operator `add`) the local transforms along the path from the root
down to that node. -/
theorem C1_collect_items_preorder_world {α : Type} (add : α → α → α)
    (tgt : Variant) (parent : α) (root : SNode α) :
    collectItems add tgt root parent
      = ((preorderEnum add parent [] root).filter
          (fun e => e.2.1.variant = tgt)).map (fun e => e.2)
    ∧ (∀ p : List ℕ, (preorderEnum add parent [] root).countP (fun e => e.1 = p)
        = if (nodeAt root p).isSome then 1 else 0)
    ∧ ((preorderEnum add parent [] root).map (fun e => e.1)).Pairwise
        (fun p q => ¬ q <+: p)
    ∧ (∀ e ∈ preorderEnum add parent [] root,
        nodeAt root e.1 = some e.2.1
          ∧ e.2.2 = (localsAlong root e.1).foldl add parent) := by
  refine ⟨collectItems_eq_filter add tgt root parent [], ?_,
    preorderEnum_pairwise add root parent [], ?_⟩
  · intro p
    simpa using preorderEnum_count add root parent [] p
  · intro e he
    obtain ⟨q, hq1, hq2, hq3⟩ := preorderEnum_entries add root parent [] e he
    rw [List.nil_append] at hq1
    rw [hq1]
    exact ⟨hq2, hq3⟩

/-! ### Camera-path resolution (`traverse_camera_path`, `src/src/lib.rs` 534-555) -/

/-- Name lookup in a node collection (`get_dyn_mut` on the name-keyed map;
names are unique within one manager, so the first match is the match). -/
def getDyn (nodes : List (SNode α)) (key : String) : Option (SNode α) :=
  nodes.find? (fun c => c.name = key)

/-- The descent loop of `traverse_camera_path`: for each remaining segment,
fold the current node's local transform into the accumulator and step into
the named child; at the end of the path, downcast to `Camera3D`. -/
def descendPath (add : α → α → α) : SNode α → α → List String → Option (SNode α × α)
  | cur, acc, [] =>
    if cur.variant = Variant.camera3D then some (cur, acc) else none
  | cur, acc, idx :: rest =>
    match getDyn cur.children idx with
    | some c => descendPath add c (add acc cur.transform) rest
    | none => none

/-- Shallow embedding of `traverse_camera_path`: `None` on an empty path,
otherwise resolve the first segment in the scene's root collection and run
the descent loop starting from the default transform. -/
def traverseCameraPath (add : α → α → α) (dflt : α)
    (scene : List (SNode α)) (path : List String) : Option (SNode α × α) :=
  match path with
  | [] => none
  | p0 :: rest => (getDyn scene p0).bind (fun n => descendPath add n dflt rest)

/-- Specification-side stepwise name resolution inside one node's subtree. -/
def resolveNames : SNode α → List String → Option (SNode α)
  | n, [] => some n
  | n, idx :: rest => (getDyn n.children idx).bind (fun c => resolveNames c rest)

/-- Specification-side resolution of a full path against the scene root. -/
def resolveScene (scene : List (SNode α)) : List String → Option (SNode α)
  | [] => none
  | p0 :: rest => (getDyn scene p0).bind (fun n => resolveNames n rest)

/-- The local transforms of the path's nodes excluding the final node. -/
def ancestorLocals : SNode α → List String → List α
  | _, [] => []
  | n, idx :: rest =>
    n.transform ::
      (match getDyn n.children idx with
       | some c => ancestorLocals c rest
       | none => [])

/-- `ancestorLocals` lifted to the scene's root collection. -/
def sceneAncestorLocals (scene : List (SNode α)) : List String → List α
  | [] => []
  | p0 :: rest =>
    match getDyn scene p0 with
    | some n => ancestorLocals n rest
    | none => []

theorem descendPath_spec (add : α → α → α) :
    ∀ (rest : List String) (cur : SNode α) (acc : α),
      descendPath add cur acc rest
        = (resolveNames cur rest).bind
            (fun cam => if cam.variant = Variant.camera3D
              then some (cam, (ancestorLocals cur rest).foldl add acc)
              else none)
  | [], cur, acc => by
    rw [descendPath, resolveNames, ancestorLocals]
    simp
  | idx :: rest, cur, acc => by
    rw [descendPath, resolveNames, ancestorLocals]
    match h : getDyn cur.children idx with
    | none => simp
    | some c =>
      simp only [Option.some_bind, List.foldl_cons]
      exact descendPath_spec add rest c (add acc cur.transform)

/-- **C3.** For every scene and camera path, `traverse_camera_path` returns
`some (camera, transform)` iff every path segment resolves to an existing
child at each level and the final node is a `Camera3D`; the returned
transform is the composition (by the transform addition operator `add`,
starting from the default transform) of the local transforms of the path
nodes excluding the final camera node's own; on an empty path, a missing
segment, or a final node of a different variant it returns `none` (the
embedding is a total function: no panic). -/
theorem C3_traverse_camera_path {α : Type} (add : α → α → α) (dflt : α)
    (scene : List (SNode α)) (path : List String) :
    (∀ cam w, traverseCameraPath add dflt scene path = some (cam, w)
       ↔ (resolveScene scene path = some cam
           ∧ cam.variant = Variant.camera3D
           ∧ w = (sceneAncestorLocals scene path).foldl add dflt))
    ∧ traverseCameraPath add dflt scene [] = none
    ∧ (resolveScene scene path = none
        → traverseCameraPath add dflt scene path = none)
    ∧ (∀ cam, resolveScene scene path = some cam
        → cam.variant ≠ Variant.camera3D
        → traverseCameraPath add dflt scene path = none) := by
  have key : traverseCameraPath add dflt scene path
      = (resolveScene scene path).bind
          (fun cam => if cam.variant = Variant.camera3D
            then some (cam, (sceneAncestorLocals scene path).foldl add dflt)
            else none) := by
    match path with
    | [] =>
      rw [traverseCameraPath, resolveScene]
      rfl
    | p0 :: rest =>
      rw [traverseCameraPath, resolveScene, sceneAncestorLocals]
      match h : getDyn scene p0 with
      | none => simp
      | some n =>
        simp only [Option.some_bind]
        exact descendPath_spec add rest n dflt
  refine ⟨?_, ?_, ?_, ?_⟩
  · intro cam w
    rw [key]
    constructor
    · intro h
      match hr : resolveScene scene path with
      | none => rw [hr] at h; simp at h
      | some cam2 =>
        rw [hr] at h
        simp only [Option.some_bind] at h
        by_cases hv : cam2.variant = Variant.camera3D
        · rw [if_pos hv] at h
          simp only [Option.some.injEq, Prod.mk.injEq] at h
          obtain ⟨hc, hw⟩ := h
          subst hc
          exact ⟨rfl, hv, hw.symm⟩
        · rw [if_neg hv] at h
          cases h
    · rintro ⟨h1, h2, h3⟩
      rw [h1]
      simp [h2, h3]
  · rw [traverseCameraPath]
  · intro h
    rw [key, h]
    rfl
  · intro cam h hv
    rw [key, h]
    simp [hv]

/-! ### `apply_transform` (`src/src/engine/game_context/node_manager.rs` 171-215)

The operation handed to `apply_transform` is an `FnMut(&mut NodeTransform)`
closure: it may carry mutable captured state, so it is modelled as a
state-threading function `op : σ → α → σ × α`. -/

/-- Thread `op` through a list left-to-right, returning the final state and
the rewritten list. -/
def mapAccum {σ : Type u} (op : σ → α → σ × α) : σ → List α → σ × List α
  | s, [] => (s, [])
  | s, a :: rest =>
    let p1 := op s a
    let p2 := mapAccum op p1.1 rest
    (p2.1, p1.2 :: p2.2)

mutual

/-- Shallow embedding of the free function `apply_transform`: apply the
operation to the node's own transform, then — when the node downcasts to
`Model` — to each internal mesh-node transform in order, then recurse into
every child. -/
def applyTransform {σ : Type u} (op : σ → α → σ × α) :
    σ → SNode α → σ × SNode α
  | s, .mk n v t ms cs =>
    let p1 := op s t
    let p2 := if v = Variant.model then mapAccum op p1.1 ms else (p1.1, ms)
    let p3 := applyTransformList op p2.1 cs
    (p3.1, .mk n v p1.2 p2.2 p3.2)

/-- The recursion of `apply_transform` over the child collection. -/
def applyTransformList {σ : Type u} (op : σ → α → σ × α) :
    σ → List (SNode α) → σ × List (SNode α)
  | s, [] => (s, [])
  | s, c :: cs =>
    let p1 := applyTransform op s c
    let p2 := applyTransformList op p1.1 cs
    (p2.1, p1.2 :: p2.2)

end

mutual

/-- Specification-side pre-order sequence of every transform the traversal
owns: the node's own transform, the internal mesh-node transforms when the
node is a `Model`, then the subtrees of the children in order. -/
def preTransforms : SNode α → List α
  | .mk _ v t ms cs =>
    t :: ((if v = Variant.model then ms else []) ++ preTransformsList cs)

/-- Forest version of `preTransforms`. -/
def preTransformsList : List (SNode α) → List α
  | [] => []
  | c :: cs => preTransforms c ++ preTransformsList cs

end

mutual

/-- The transform-free shape of a tree: names, variants, mesh-list lengths
and child structure. -/
def skeleton : SNode α → SNode Unit
  | .mk n v _ ms cs => .mk n v () (ms.map fun _ => ()) (skeletonList cs)

/-- Forest version of `skeleton`. -/
def skeletonList : List (SNode α) → List (SNode Unit)
  | [] => []
  | c :: cs => skeleton c :: skeletonList cs

end

theorem mapAccum_append {σ : Type u} (op : σ → α → σ × α) :
    ∀ (l1 l2 : List α) (s : σ),
      mapAccum op s (l1 ++ l2)
        = ((mapAccum op (mapAccum op s l1).1 l2).1,
           (mapAccum op s l1).2 ++ (mapAccum op (mapAccum op s l1).1 l2).2)
  | [], l2, s => by simp [mapAccum]
  | a :: l1, l2, s => by
    simp only [List.cons_append, mapAccum, List.append_eq]
    rw [mapAccum_append op l1 l2 (op s a).1]

theorem mapAccum_units {σ : Type u} (op : σ → α → σ × α) :
    ∀ (l : List α) (s : σ),
      (mapAccum op s l).2.map (fun _ => ()) = l.map (fun _ => ())
  | [], s => by simp [mapAccum]
  | a :: l, s => by
    simp only [mapAccum, List.map_cons]
    rw [mapAccum_units op l]

mutual

theorem applyTransform_spec {σ : Type u} (op : σ → α → σ × α) :
    ∀ (nd : SNode α) (s : σ),
      (applyTransform op s nd).1 = (mapAccum op s (preTransforms nd)).1
        ∧ preTransforms (applyTransform op s nd).2
            = (mapAccum op s (preTransforms nd)).2
        ∧ skeleton (applyTransform op s nd).2 = skeleton nd
  | .mk n v t ms cs, s => by
    by_cases hv : v = Variant.model
    · subst hv
      obtain ⟨ih1, ih2, ih3⟩ :=
        applyTransformList_spec op cs (mapAccum op (op s t).1 ms).1
      rw [applyTransform, preTransforms, mapAccum]
      simp only [eq_self_iff_true, if_true]
      rw [mapAccum_append op ms (preTransformsList cs) (op s t).1]
      simp only [skeleton, preTransforms, eq_self_iff_true, if_true]
      refine ⟨ih1, ?_, ?_⟩
      · rw [ih2]
      · rw [ih3, mapAccum_units op ms]
    · obtain ⟨ih1, ih2, ih3⟩ := applyTransformList_spec op cs (op s t).1
      rw [applyTransform, preTransforms, mapAccum]
      simp only [hv, if_false, skeleton, preTransforms, List.nil_append]
      refine ⟨ih1, ?_, ?_⟩
      · rw [ih2]
      · rw [ih3]

theorem applyTransformList_spec {σ : Type u} (op : σ → α → σ × α) :
    ∀ (cs : List (SNode α)) (s : σ),
      (applyTransformList op s cs).1 = (mapAccum op s (preTransformsList cs)).1
        ∧ preTransformsList (applyTransformList op s cs).2
            = (mapAccum op s (preTransformsList cs)).2
        ∧ skeletonList (applyTransformList op s cs).2 = skeletonList cs
  | [], s => by
    rw [applyTransformList, preTransformsList, mapAccum]
    exact ⟨rfl, rfl, rfl⟩
  | c :: cs, s => by
    obtain ⟨ih1, ih2, ih3⟩ := applyTransform_spec op c s
    obtain ⟨jh1, jh2, jh3⟩ :=
      applyTransformList_spec op cs (applyTransform op s c).1
    rw [applyTransformList, preTransformsList]
    rw [mapAccum_append op (preTransforms c) (preTransformsList cs) s]
    simp only [preTransformsList, skeletonList]
    refine ⟨?_, ?_, ?_⟩
    · rw [jh1, ih1]
    · rw [ih2, jh2, ih1]
    · rw [ih3, jh3]

end

mutual

theorem nodeAt_preTransforms_subset :
    ∀ (s : SNode α) (p : List ℕ) (nd : SNode α),
      nodeAt s p = some nd → ∀ a ∈ preTransforms nd, a ∈ preTransforms s
  | s, [], nd => by
    rw [nodeAt]
    intro h
    cases h
    exact fun a ha => ha
  | .mk n v t ms cs, i :: p, nd => by
    rw [nodeAt]
    intro h a ha
    have hmem := nodeAtList_preTransforms_subset cs i p nd h a ha
    rw [preTransforms]
    exact List.mem_cons_of_mem _ (List.mem_append_right _ hmem)

theorem nodeAtList_preTransforms_subset :
    ∀ (cs : List (SNode α)) (i : ℕ) (p : List ℕ) (nd : SNode α),
      nodeAtList cs i p = some nd → ∀ a ∈ preTransforms nd, a ∈ preTransformsList cs
  | [], i, p, nd => by
    rw [nodeAtList]
    intro h
    cases h
  | c :: cs, 0, p, nd => by
    rw [nodeAtList]
    intro h a ha
    rw [preTransformsList]
    exact List.mem_append_left _ (nodeAt_preTransforms_subset c p nd h a ha)
  | c :: cs, i + 1, p, nd => by
    rw [nodeAtList]
    intro h a ha
    rw [preTransformsList]
    exact List.mem_append_right _
      (nodeAtList_preTransforms_subset cs i p nd h a ha)

end

theorem self_mem_preTransforms (nd : SNode α) :
    nd.transform ∈ preTransforms nd
    ∧ (nd.variant = Variant.model → ∀ a ∈ nd.meshNodes, a ∈ preTransforms nd) := by
  match nd with
  | .mk n v t ms cs =>
    rw [preTransforms]
    refine ⟨List.mem_cons_self _ _, ?_⟩
    intro hv a ha
    rw [SNode.variant] at hv
    rw [SNode.meshNodes] at ha
    exact List.mem_cons_of_mem _ (List.mem_append_left _ (by simp [hv, ha]))

/-- **C9.** `apply_transform` does not only mutate the node's own transform:
threading the (possibly stateful) operation through the tree, it applies the
operation to exactly the pre-order sequence `preTransforms` of transforms —
the node's own transform first, then the internal mesh-node transforms of a
`Model`, then every child subtree in order — writing each result back in
place while preserving the tree's shape; and the transform of every
descendant (`nodeAt`), together with every mesh-node transform of every
`Model` in the subtree, occurs in that operated sequence, so none is left
untouched. -/
theorem C9_apply_transform_reaches_all {α σ : Type} (op : σ → α → σ × α)
    (s : σ) (root : SNode α) :
    (applyTransform op s root).1 = (mapAccum op s (preTransforms root)).1
    ∧ preTransforms (applyTransform op s root).2
        = (mapAccum op s (preTransforms root)).2
    ∧ skeleton (applyTransform op s root).2 = skeleton root
    ∧ (∀ p nd, nodeAt root p = some nd →
        nd.transform ∈ preTransforms root
          ∧ (nd.variant = Variant.model →
              ∀ a ∈ nd.meshNodes, a ∈ preTransforms root)) := by
  obtain ⟨h1, h2, h3⟩ := applyTransform_spec op root s
  refine ⟨h1, h2, h3, ?_⟩
  intro p nd hp
  obtain ⟨hself, hmesh⟩ := self_mem_preTransforms nd
  exact ⟨nodeAt_preTransforms_subset root p nd hp _ hself,
    fun hv a ha => nodeAt_preTransforms_subset root p nd hp a (hmesh hv a ha)⟩

/-! ### `NodeTransform` (`src/src/engine/game_context/node_manager.rs` 19-152)

`f32` arithmetic is modelled by real arithmetic; the glm helpers used by the
transform code are embedded from their standard definitions. -/

noncomputable section

/-- 3-vector over the reals (`glm::Vec3`). -/
structure Vec3 where
  x : ℝ
  y : ℝ
  z : ℝ

/-- Quaternion over the reals (`glm::Quat`), `w` the scalar part. -/
structure Quat where
  w : ℝ
  x : ℝ
  y : ℝ
  z : ℝ

/-- 4x4 real matrix (`glm::Mat4`). -/
abbrev Mat4 := Matrix (Fin 4) (Fin 4) ℝ

/-- Component-wise vector sum. -/
def vadd (a b : Vec3) : Vec3 := ⟨a.x + b.x, a.y + b.y, a.z + b.z⟩

/-- Scalar multiple of a vector. -/
def smul3 (r : ℝ) (v : Vec3) : Vec3 := ⟨r * v.x, r * v.y, r * v.z⟩

/-- Cross product (`glm::cross`). -/
def cross (a b : Vec3) : Vec3 :=
  ⟨a.y * b.z - a.z * b.y, a.z * b.x - a.x * b.z, a.x * b.y - a.y * b.x⟩

/-- Dot product (`glm::dot`). -/
def dot3 (a b : Vec3) : ℝ := a.x * b.x + a.y * b.y + a.z * b.z

/-- Euclidean norm of a vector (`magnitude`). -/
def norm3 (v : Vec3) : ℝ := Real.sqrt (dot3 v v)

/-- `glm::normalize`. -/
def normalize3 (v : Vec3) : Vec3 := smul3 (1 / norm3 v) v

/-- `glm::translation`. -/
def glmTranslation (v : Vec3) : Mat4 :=
  Matrix.of
    ![![1, 0, 0, v.x], ![0, 1, 0, v.y], ![0, 0, 1, v.z], ![0, 0, 0, 1]]

/-- `glm::scaling`. -/
def glmScaling (v : Vec3) : Mat4 :=
  Matrix.of
    ![![v.x, 0, 0, 0], ![0, v.y, 0, 0], ![0, 0, v.z, 0], ![0, 0, 0, 1]]

/-- `glm::quat_to_mat4`: the homogeneous rotation matrix of a quaternion. -/
def quatToMat4 (q : Quat) : Mat4 :=
  Matrix.of
    ![![1 - 2 * (q.y ^ 2 + q.z ^ 2), 2 * (q.x * q.y - q.w * q.z),
        2 * (q.x * q.z + q.w * q.y), 0],
      ![2 * (q.x * q.y + q.w * q.z), 1 - 2 * (q.x ^ 2 + q.z ^ 2),
        2 * (q.y * q.z - q.w * q.x), 0],
      ![2 * (q.x * q.z - q.w * q.y), 2 * (q.y * q.z + q.w * q.x),
        1 - 2 * (q.x ^ 2 + q.y ^ 2), 0],
      ![0, 0, 0, 1]]

/-- `glm::quat_identity`. -/
def quatIdentity : Quat := ⟨1, 0, 0, 0⟩

/-- Hamilton product (`glm` quaternion `*`). -/
def quatMul (p q : Quat) : Quat :=
  ⟨p.w * q.w - p.x * q.x - p.y * q.y - p.z * q.z,
   p.w * q.x + p.x * q.w + p.y * q.z - p.z * q.y,
   p.w * q.y - p.x * q.z + p.y * q.w + p.z * q.x,
   p.w * q.z + p.x * q.y - p.y * q.x + p.z * q.w⟩

/-- `glm::quat_angle_axis`: rotation about `axis` by `angle` radians. -/
def quatAngleAxis (angle : ℝ) (axis : Vec3) : Quat :=
  ⟨Real.cos (angle / 2), axis.x * Real.sin (angle / 2),
   axis.y * Real.sin (angle / 2), axis.z * Real.sin (angle / 2)⟩

/-- `glm::radians`. -/
def radians (deg : ℝ) : ℝ := deg * Real.pi / 180

/-- `glm::quat_rotate_vec3`, by glm's formula
`v + 2 * cross(q.xyz, cross(q.xyz, v) + q.w * v)`. -/
def quatRotateVec3 (q : Quat) (v : Vec3) : Vec3 :=
  vadd v (smul3 2 (cross ⟨q.x, q.y, q.z⟩ (vadd (cross ⟨q.x, q.y, q.z⟩ v) (smul3 q.w v))))

/-- The engine's transform: position, rotation, scale, and the derived
matrix (`NodeTransform` in `node_manager.rs`). -/
structure NodeTransform where
  position : Vec3
  rotation : Quat
  scale : Vec3
  matrix : Mat4

namespace NodeTransform

/-- `update_matrix`: recompute
`matrix = translation(position) * quat_to_mat4(rotation) * scaling(scale)`. -/
def updateMatrix (t : NodeTransform) : NodeTransform :=
  { t with
    matrix := glmTranslation t.position * quatToMat4 t.rotation * glmScaling t.scale }

/-- `NodeTransform::new`. -/
def new (position : Vec3) (rotation : Quat) (scale : Vec3) : NodeTransform :=
  updateMatrix { position := position, rotation := rotation, scale := scale, matrix := 1 }

/-- `NodeTransform::default`: identity transform. -/
def dflt : NodeTransform :=
  updateMatrix
    { position := ⟨0, 0, 0⟩, rotation := quatIdentity, scale := ⟨1, 1, 1⟩, matrix := 1 }

/-- `set_position`. -/
def setPosition (t : NodeTransform) (p : Vec3) : NodeTransform :=
  updateMatrix { t with position := p }

/-- `set_rotation`. -/
def setRotation (t : NodeTransform) (q : Quat) : NodeTransform :=
  updateMatrix { t with rotation := q }

/-- `set_euler_xyz`: degrees per axis, composed X then Y then Z. -/
def setEulerXYZ (t : NodeTransform) (degrees : Vec3) : NodeTransform :=
  updateMatrix
    { t with
      rotation :=
        quatMul
          (quatMul (quatAngleAxis (radians degrees.x) ⟨1, 0, 0⟩)
            (quatAngleAxis (radians degrees.y) ⟨0, 1, 0⟩))
          (quatAngleAxis (radians degrees.z) ⟨0, 0, 1⟩) }

/-- `set_scale`. -/
def setScale (t : NodeTransform) (s : Vec3) : NodeTransform :=
  updateMatrix { t with scale := s }

/-- `translate`: `position += translation`. -/
def translate (t : NodeTransform) (translation : Vec3) : NodeTransform :=
  updateMatrix { t with position := vadd t.position translation }

/-- `rotate(axis, degrees)`: left-multiply by the axis-angle quaternion. -/
def rotate (t : NodeTransform) (axis : Vec3) (degrees : ℝ) : NodeTransform :=
  updateMatrix
    { t with rotation := quatMul (quatAngleAxis (radians degrees) axis) t.rotation }

/-- `rotate_euler_xyz`: left-multiply by the XYZ euler quaternion. -/
def rotateEulerXYZ (t : NodeTransform) (degrees : Vec3) : NodeTransform :=
  updateMatrix
    { t with
      rotation :=
        quatMul
          (quatMul
            (quatMul (quatAngleAxis (radians degrees.x) ⟨1, 0, 0⟩)
              (quatAngleAxis (radians degrees.y) ⟨0, 1, 0⟩))
            (quatAngleAxis (radians degrees.z) ⟨0, 0, 1⟩))
          t.rotation }

/-- `scale`: component-wise multiply the scale factors. -/
def scaleBy (t : NodeTransform) (s : Vec3) : NodeTransform :=
  updateMatrix
    { t with scale := ⟨t.scale.x * s.x, t.scale.y * s.y, t.scale.z * s.z⟩ }

end NodeTransform

/-- One call to a mutating `NodeTransform` operation. -/
inductive TOp where
  | setPosition (p : Vec3)
  | setRotation (q : Quat)
  | setEulerXYZ (degrees : Vec3)
  | setScale (s : Vec3)
  | translate (v : Vec3)
  | rotate (axis : Vec3) (degrees : ℝ)
  | rotateEulerXYZ (degrees : Vec3)
  | scaleBy (s : Vec3)

/-- Run one operation. -/
def applyTOp (t : NodeTransform) : TOp → NodeTransform
  | .setPosition p => t.setPosition p
  | .setRotation q => t.setRotation q
  | .setEulerXYZ d => t.setEulerXYZ d
  | .setScale s => t.setScale s
  | .translate v => t.translate v
  | .rotate axis d => t.rotate axis d
  | .rotateEulerXYZ d => t.rotateEulerXYZ d
  | .scaleBy s => t.scaleBy s

/-- Run a sequence of operations, first to last. -/
def applyTOps (t : NodeTransform) (ops : List TOp) : NodeTransform :=
  ops.foldl applyTOp t

/-- The consistency invariant of the spec: the stored matrix is the
translation-rotation-scaling product of the current component fields. -/
def transformConsistent (t : NodeTransform) : Prop :=
  t.matrix = glmTranslation t.position * quatToMat4 t.rotation * glmScaling t.scale

/-- **C2.** For every `NodeTransform` and every finite sequence of calls to
the mutating operations, after each call the stored matrix equals
`translation(position) * quat_to_mat4(rotation) * scaling(scale)` recomputed
from the current fields: the state reached after the `(k+1)`-st call of any
sequence is `applyTOp (applyTOps t0 priorOps) op`, and it always satisfies
the invariant — matrix and component fields are never observably
inconsistent. -/
theorem C2_matrix_never_stale (t0 : NodeTransform) (priorOps : List TOp) (op : TOp) :
    transformConsistent (applyTOp (applyTOps t0 priorOps) op) := by
  cases op <;> rfl

end

/-! ### `NodeManager` (`src/src/engine/game_context/node_manager.rs` 244-366) -/

/-- Lookup in a string-keyed map (`HashMap::get`), as an association list. -/
def mapLookup {β : Type} (m : List (String × β)) (k : String) : Option β :=
  (m.find? (fun e => e.1 = k)).map (fun e => e.2)

/-- `HashMap::insert`: replace the value of an existing key, otherwise add
the binding. -/
def mapInsert {β : Type} (m : List (String × β)) (k : String) (v : β) :
    List (String × β) :=
  match m with
  | [] => [(k, v)]
  | e :: rest => if e.1 = k then (k, v) :: rest else e :: mapInsert rest k v

/-- The node manager: named nodes, named shaders, and the active camera and
shader designations (empty string = unset). The stored node type `β` is
paired with a `Variant` tag at insertion, standing for the Rust static type
`T` that `add` compares with `Camera3D` by `type_name`. -/
structure NodeManager (β γ : Type) where
  nodes : List (String × β)
  shaders : List (String × γ)
  activeCamera : String
  activeShader : String

/-- `NodeManager::add`: insert the node (replacing any previous binding of
the name); if the inserted static type is `Camera3D` and no active camera is
set, designate this name as the active camera. -/
def NodeManager.add {β γ : Type} (m : NodeManager β γ) (name : String)
    (variant : Variant) (node : β) : NodeManager β γ :=
  let m1 := { m with nodes := mapInsert m.nodes name node }
  if variant = Variant.camera3D ∧ m.activeCamera = "" then
    { m1 with activeCamera := name }
  else m1

/-- `NodeManager::add_shader`: insert the shader; if no active shader is
set, designate this name as the active shader. -/
def NodeManager.addShader {β γ : Type} (m : NodeManager β γ) (name : String)
    (shader : γ) : NodeManager β γ :=
  let m1 := { m with shaders := mapInsert m.shaders name shader }
  if m.activeShader = "" then { m1 with activeShader := name } else m1

theorem mapInsert_lookup_self {β : Type} :
    ∀ (m : List (String × β)) (k : String) (v : β),
      mapLookup (mapInsert m k v) k = some v
  | [], k, v => by simp [mapInsert, mapLookup, List.find?]
  | e :: rest, k, v => by
    rw [mapInsert]
    by_cases h : e.1 = k
    · simp [h, mapLookup, List.find?]
    · simp only [if_neg h]
      rw [mapLookup, List.find?]
      have hne : (decide (e.1 = k)) = false := by simp [h]
      rw [hne]
      exact mapInsert_lookup_self rest k v

theorem mapInsert_lookup_other {β : Type} :
    ∀ (m : List (String × β)) (k k' : String) (v : β), k' ≠ k →
      mapLookup (mapInsert m k v) k' = mapLookup m k'
  | [], k, k', v, h => by
    simp [mapInsert, mapLookup, List.find?, Ne.symm h]
  | e :: rest, k, k', v, h => by
    rw [mapInsert]
    by_cases he : e.1 = k
    · subst he
      simp [mapLookup, List.find?, Ne.symm h, h]
    · simp only [if_neg he]
      rw [mapLookup, List.find?, mapLookup, List.find?]
      by_cases he' : e.1 = k'
      · simp [he']
      · simp only [show (decide (e.1 = k')) = false by simp [he']]
        exact mapInsert_lookup_other rest k k' v h

/-- **C7 (as corrected).** Inserting a node under a name that is already
bound is not rejected: `add` always succeeds (it returns the updated
manager and the freshly inserted node is the one stored under the name,
`HashMap::insert` semantics), the previously stored node is silently
replaced, and every other binding is untouched. -/
theorem C7_add_replaces_existing {β γ : Type} (m : NodeManager β γ)
    (name : String) (variant : Variant) (node : β) :
    mapLookup (m.add name variant node).nodes name = some node
    ∧ (∀ k, k ≠ name →
        mapLookup (m.add name variant node).nodes k = mapLookup m.nodes k) := by
  have hnodes : (m.add name variant node).nodes = mapInsert m.nodes name node := by
    rw [NodeManager.add]
    by_cases h : variant = Variant.camera3D ∧ m.activeCamera = ""
    · rw [if_pos h]
    · rw [if_neg h]
  rw [hnodes]
  exact ⟨mapInsert_lookup_self m.nodes name node,
    fun k hk => mapInsert_lookup_other m.nodes name k node hk⟩

/-- **C7, counterexample to the claim as stated.** A manager already binding
`"a"`: inserting another node under `"a"` is not rejected and the node
collection does not keep the previously stored node — it is silently
replaced. -/
theorem C7_counterexample :
    mapLookup
        ((NodeManager.add ⟨[("a", (0 : ℕ))], ([] : List (String × Unit)), "", ""⟩
          "a" Variant.empty 1).nodes) "a" = some 1
    ∧ mapLookup
        ((NodeManager.add ⟨[("a", (0 : ℕ))], ([] : List (String × Unit)), "", ""⟩
          "a" Variant.empty 1).nodes) "a" ≠ some 0 := by
  constructor
  · rfl
  · intro h
    simp [NodeManager.add, mapInsert, mapLookup, List.find?] at h

/-- **C10.** `NodeManager::add` sets `active_camera` to the inserted name
exactly when the inserted node's static type is `Camera3D` and
`active_camera` was previously empty, and leaves it unchanged in every other
case; analogously `add_shader` sets `active_shader` exactly when it was
previously empty. -/
theorem C10_active_designations {β γ : Type} (m : NodeManager β γ)
    (name : String) (variant : Variant) (node : β) (shader : γ) :
    (m.add name variant node).activeCamera
      = (if variant = Variant.camera3D ∧ m.activeCamera = ""
          then name else m.activeCamera)
    ∧ (m.add name variant node).activeShader = m.activeShader
    ∧ (m.addShader name shader).activeShader
        = (if m.activeShader = "" then name else m.activeShader)
    ∧ (m.addShader name shader).activeCamera = m.activeCamera := by
  refine ⟨?_, ?_, ?_, ?_⟩ <;>
    · simp only [NodeManager.add, NodeManager.addShader]
      split <;> rfl

/-! ### `DirectionalLight` (`src/src/nodes/directional_light.rs`)

Only the fields the claims touch are modelled; the child scene and event
receiver play no part in the cascade, far-plane and rotation behaviour. -/

noncomputable section

/-- 4-vector over the reals (`glm::Vec4`, used for the light color). -/
structure Vec4 where
  x : ℝ
  y : ℝ
  z : ℝ
  w : ℝ

/-- Component-wise vector difference. -/
def vsub (a b : Vec3) : Vec3 := ⟨a.x - b.x, a.y - b.y, a.z - b.z⟩

/-- `glm::ortho` (right-handed, `-1..1` clip): the orthographic projection. -/
def glmOrtho (left right bottom top zNear zFar : ℝ) : Mat4 :=
  Matrix.of
    ![![2 / (right - left), 0, 0, -(right + left) / (right - left)],
      ![0, 2 / (top - bottom), 0, -(top + bottom) / (top - bottom)],
      ![0, 0, -2 / (zFar - zNear), -(zFar + zNear) / (zFar - zNear)],
      ![0, 0, 0, 1]]

/-- `glm::look_at` (right-handed). -/
def glmLookAt (eye center up : Vec3) : Mat4 :=
  let f := normalize3 (vsub center eye)
  let s := normalize3 (cross f up)
  let u := cross s f
  Matrix.of
    ![![s.x, s.y, s.z, -(dot3 s eye)],
      ![u.x, u.y, u.z, -(dot3 u eye)],
      ![-f.x, -f.y, -f.z, dot3 f eye],
      ![0, 0, 0, 1]]

/-- One shadow cascade (struct `Cascade`). -/
structure Cascade where
  near_plane : ℝ
  far_plane : ℝ
  projection : Mat4
  view : Mat4

/-- The directional light's state (struct `DirectionalLight`), restricted to
the fields involved in cascade generation, far-plane changes and the
direction rotation. -/
structure DirectionalLight where
  transform : NodeTransform
  color : Vec4
  intensity : ℝ
  shadow_distance : ℝ
  shadow_projections : Mat4
  light_space_matrices : List Mat4
  direction : Vec3
  far_plane : ℝ
  shadow_index : ℕ
  cascades : List Cascade
  num_cascades : ℕ
  cascade_factors : List ℝ

/-- The rotation quaternion `DirectionalLight::new` and
`DirectionalLight::set_direction` compute from a direction vector: identity
when the direction is (near-)parallel to the `+Z` reference, a 180-degree
rotation about `+X` when (near-)anti-parallel, otherwise the axis-angle
rotation about the normalized cross product by the arc-cosine of the dot
product. -/
def rotationFromDirection (direction : Vec3) : Quat :=
  let reference : Vec3 := ⟨0, 0, 1⟩
  if |dot3 direction reference| > 0.9999 then
    if direction.z > 0 then quatIdentity
    else quatAngleAxis Real.pi ⟨1, 0, 0⟩
  else
    quatAngleAxis (Real.arccos (dot3 reference direction))
      (normalize3 (cross reference direction))

/-- One split fraction of `calculate_cascade_splits`: the
logarithmic/uniform blend at index `i` of `num`, normalized by the far
plane (`f32::powf` on the positive base is modelled by the real power). -/
def cascadeSplit (nearP farP : ℝ) (num : ℕ) (lambda : ℝ) (i : ℕ) : ℝ :=
  let uniformSplit := nearP + (farP - nearP) * ((i : ℝ) / (num : ℝ))
  let logSplit := nearP * (farP / nearP) ^ (((i : ℝ) / (num : ℝ)) : ℝ)
  (lambda * logSplit + (1 - lambda) * uniformSplit) / farP

/-- `DirectionalLight::calculate_cascade_splits`: the split fractions for
`i = 1..=num_cascades`. -/
def calculateCascadeSplits (nearP farP : ℝ) (num : ℕ) (lambda : ℝ) : List ℝ :=
  (List.range num).map (fun k => cascadeSplit nearP farP num lambda (k + 1))

/-- One cascade of `gen_cascades`: the split factor is read totally
(`cascade_factors.get(i).unwrap_or(&1.0)`), the radius is
`far_plane / 2 * factor`, and projection and view are built from it. -/
def genCascade (farP : ℝ) (factor : ℝ) : Cascade :=
  let radius := farP / 2 * factor
  { near_plane := 0.1
    far_plane := farP
    projection := glmOrtho (-radius) radius (-radius) radius 0.1 farP
    view :=
      glmLookAt (smul3 radius (normalize3 ⟨0, 0, 1⟩)) ⟨0, 0, 0⟩ ⟨0, 1, 0⟩ }

/-- `DirectionalLight::gen_cascades`, as the list of cascades it pushes:
index `i` of `0..num_cascades` uses split factor `factors.getD i 1`. -/
def genCascades (farP : ℝ) (num : ℕ) (factors : List ℝ) : List Cascade :=
  (List.range num).map (fun i => genCascade farP (factors.getD i 1))

/-- `DirectionalLight::new`. -/
def DirectionalLight.new (direction : Vec3) (color : Vec4)
    (shadow_distance : ℝ) (num_cascades : ℕ) : DirectionalLight :=
  let factors := calculateCascadeSplits 0.1 shadow_distance num_cascades 0.7
  { transform :=
      NodeTransform.new ⟨0, 0, 0⟩ (rotationFromDirection direction) ⟨1, 1, 1⟩
    color := color
    intensity := 1
    shadow_distance := shadow_distance
    shadow_projections :=
      glmOrtho (-(shadow_distance / 2)) (shadow_distance / 2)
        (-(shadow_distance / 2)) (shadow_distance / 2) 0.1 shadow_distance
    light_space_matrices := []
    direction := normalize3 direction
    far_plane := shadow_distance
    shadow_index := 0
    cascades := genCascades shadow_distance num_cascades factors
    num_cascades := num_cascades
    cascade_factors := factors }

/-- `DirectionalLight::get_vps`: the per-cascade view-projection matrices,
looking from the camera position offset along the stored direction by half
the stored `far_plane`. -/
def DirectionalLight.getVps (l : DirectionalLight) (camera_pos : Vec3) :
    List Mat4 :=
  let projection_offset := smul3 (l.far_plane / 2) l.direction
  let view :=
    glmLookAt (vadd camera_pos projection_offset) camera_pos ⟨0, 1, 0⟩
  l.cascades.map (fun cascade => cascade.projection * view)

/-- `DirectionalLight::set_far_plane`: updates `shadow_distance` and the
single `shadow_projections` matrix. The `light_view` the source computes
from the transform's rotation is dead (its assignment is commented out),
and no other field is written. -/
def DirectionalLight.setFarPlane (l : DirectionalLight) (distance : ℝ) :
    DirectionalLight :=
  { l with
    shadow_distance := distance
    shadow_projections :=
      glmOrtho (-(distance / 2)) (distance / 2) (-(distance / 2))
        (distance / 2) 0.1 distance }

/-- `DirectionalLight::set_direction`: recomputes the rotation quaternion
from the direction and stores it via `set_rotation` (the `light_view` local
is dead; the `direction` field itself is not updated). -/
def DirectionalLight.setDirection (l : DirectionalLight) (direction : Vec3) :
    DirectionalLight :=
  { l with
    transform := l.transform.setRotation (rotationFromDirection direction) }

theorem cascadeSplit_strict_mono (farP : ℝ) (num : ℕ) (hfar : 0.1 < farP)
    (hnum : 1 ≤ num) :
    ∀ i j : ℕ, i < j →
      cascadeSplit 0.1 farP num 0.7 i < cascadeSplit 0.1 farP num 0.7 j := by
  intro i j hij
  have hn : 0 < num := hnum
  have hn0 : (0 : ℝ) < (num : ℝ) := by exact_mod_cast hn
  have hfar0 : (0 : ℝ) < farP := by linarith
  have hbase : (1 : ℝ) < farP / 0.1 := by
    rw [lt_div_iff₀ (by norm_num : (0 : ℝ) < 0.1)]
    linarith
  have hexp : ((i : ℝ) / (num : ℝ)) < ((j : ℝ) / (num : ℝ)) := by
    apply div_lt_div_of_pos_right ?_ hn0
    exact_mod_cast hij
  have h1 : (farP / 0.1) ^ ((i : ℝ) / (num : ℝ))
      < (farP / 0.1) ^ ((j : ℝ) / (num : ℝ)) :=
    (Real.rpow_lt_rpow_left_iff hbase).mpr hexp
  have h2 : (farP - 0.1) * ((i : ℝ) / (num : ℝ))
      < (farP - 0.1) * ((j : ℝ) / (num : ℝ)) := by
    apply mul_lt_mul_of_pos_left hexp
    linarith
  simp only [cascadeSplit]
  rw [div_lt_div_iff_of_pos_right hfar0]
  nlinarith [h1, h2]

theorem cascadeSplit_bounds (farP : ℝ) (num : ℕ) (hfar : 0.1 < farP)
    (hnum : 1 ≤ num) :
    ∀ i : ℕ, 1 ≤ i → i ≤ num →
      0 < cascadeSplit 0.1 farP num 0.7 i
        ∧ cascadeSplit 0.1 farP num 0.7 i ≤ 1 := by
  intro i hi1 hin
  have hn : 0 < num := hnum
  have hn0 : (0 : ℝ) < (num : ℝ) := by exact_mod_cast hn
  have hfar0 : (0 : ℝ) < farP := by linarith
  have hbase1 : (1 : ℝ) ≤ farP / 0.1 := by
    rw [le_div_iff₀ (by norm_num : (0 : ℝ) < 0.1)]
    linarith
  have hei0 : (0 : ℝ) ≤ (i : ℝ) / (num : ℝ) := by positivity
  have hei1 : ((i : ℝ) / (num : ℝ)) ≤ 1 := by
    rw [div_le_one hn0]
    exact_mod_cast hin
  have hX0 : 0 < (farP / 0.1) ^ ((i : ℝ) / (num : ℝ)) :=
    Real.rpow_pos_of_pos (by linarith) _
  have hX1 : (farP / 0.1) ^ ((i : ℝ) / (num : ℝ)) ≤ farP / 0.1 := by
    calc (farP / 0.1) ^ ((i : ℝ) / (num : ℝ))
        ≤ (farP / 0.1) ^ (1 : ℝ) :=
          Real.rpow_le_rpow_of_exponent_le hbase1 hei1
      _ = farP / 0.1 := Real.rpow_one _
  have h01 : (0.1 : ℝ) * (farP / 0.1) = farP := by
    field_simp
  constructor
  · simp only [cascadeSplit]
    apply div_pos ?_ hfar0
    nlinarith [hX0, hei0, mul_nonneg (by linarith : (0:ℝ) ≤ farP - 0.1) hei0]
  · simp only [cascadeSplit]
    rw [div_le_one hfar0]
    have hu : (farP - 0.1) * ((i : ℝ) / (num : ℝ)) ≤ farP - 0.1 := by
      nlinarith [hei1, hei0]
    nlinarith [hX1, h01, hu]

theorem cascadeSplit_last (farP : ℝ) (num : ℕ) (hfar : 0.1 < farP)
    (hnum : 1 ≤ num) :
    cascadeSplit 0.1 farP num 0.7 num = 1 := by
  have hn : 0 < num := hnum
  have hn0 : ((num : ℝ)) ≠ 0 := by
    have : (0 : ℝ) < (num : ℝ) := by exact_mod_cast hn
    linarith
  have hfar0 : farP ≠ 0 := by intro h; rw [h] at hfar; norm_num at hfar
  simp only [cascadeSplit]
  rw [div_self hn0, Real.rpow_one]
  field_simp
  ring

/-- **C4 (as corrected).** With near plane `0.1` and lambda `0.7`, for every
far-plane distance strictly beyond the near plane (`0.1 < far`) and every
cascade count `≥ 1`, the split list of `calculate_cascade_splits` is
strictly monotonically increasing with index, every element lies in
`(0, 1]`, and the last element is `1`. -/
theorem C4_cascade_splits_monotone (farP : ℝ) (num : ℕ)
    (hfar : 0.1 < farP) (hnum : 1 ≤ num) :
    List.Chain' (· < ·) (calculateCascadeSplits 0.1 farP num 0.7)
    ∧ (∀ x ∈ calculateCascadeSplits 0.1 farP num 0.7, 0 < x ∧ x ≤ 1)
    ∧ (calculateCascadeSplits 0.1 farP num 0.7).getLast? = some 1 := by
  obtain ⟨m, rfl⟩ : ∃ m, num = m + 1 := ⟨num - 1, by omega⟩
  refine ⟨?_, ?_, ?_⟩
  · rw [calculateCascadeSplits, List.chain'_map, List.chain'_range_succ]
    intro k hk
    exact cascadeSplit_strict_mono farP (m + 1) hfar hnum (k + 1) (k + 1 + 1)
      (by omega)
  · intro x hx
    rw [calculateCascadeSplits, List.mem_map] at hx
    obtain ⟨k, hk, rfl⟩ := hx
    rw [List.mem_range] at hk
    exact cascadeSplit_bounds farP (m + 1) hfar hnum (k + 1) (by omega) (by omega)
  · rw [calculateCascadeSplits, List.getLast?_map, List.range_succ,
      List.getLast?_concat]
    rw [Option.map_some', cascadeSplit_last farP (m + 1) hfar hnum]

/-- **C4, witness.** A concrete instance of the corrected cascade-split
theorem at far plane `0.4` and one cascade. -/
theorem C4_witness :
    (0.1 : ℝ) < 0.4 ∧ (1 : ℕ) ≤ 1
    ∧ (List.Chain' (· < ·) (calculateCascadeSplits 0.1 0.4 1 0.7)
       ∧ (∀ x ∈ calculateCascadeSplits 0.1 0.4 1 0.7, 0 < x ∧ x ≤ 1)
       ∧ (calculateCascadeSplits 0.1 0.4 1 0.7).getLast? = some 1) :=
  ⟨by norm_num, le_refl 1,
    C4_cascade_splits_monotone 0.4 1 (by norm_num) (le_refl 1)⟩

/-- **C4, counterexample to the claim as stated.** At the positive far-plane
distance `0.1` (equal to the near plane) with two cascades the split list is
`[1, 1]`: the elements do lie in `(0, 1]` but the list is not strictly
monotonically increasing, so the claim's quantification over *every*
positive far-plane distance fails. -/
theorem C4_counterexample :
    (0 : ℝ) < 0.1 ∧ (1 : ℕ) ≤ 2
    ∧ calculateCascadeSplits 0.1 0.1 2 0.7 = [1, 1]
    ∧ ¬ List.Chain' (· < ·) (calculateCascadeSplits 0.1 0.1 2 0.7) := by
  have hr : List.range 2 = [0, 1] := rfl
  have hl : calculateCascadeSplits 0.1 0.1 2 0.7 = [1, 1] := by
    simp only [calculateCascadeSplits, hr, List.map_cons, List.map_nil,
      cascadeSplit]
    norm_num [Real.one_rpow]
  refine ⟨by norm_num, by norm_num, hl, ?_⟩
  rw [hl]
  simp

/-- **C5 (as corrected).** `set_far_plane(d)` updates only the stored shadow
distance and the single legacy shadow projection matrix: the cascades, the
split fractions, the cascade count, the stored direction and the `far_plane`
field are all unchanged, so the per-frame view-projection computation
`get_vps` is completely unaffected by the call — it keeps using the far
plane fixed at construction. -/
theorem C5_set_far_plane_updates_projection_only (l : DirectionalLight)
    (d : ℝ) (camera_pos : Vec3) :
    (l.setFarPlane d).cascades = l.cascades
    ∧ (l.setFarPlane d).cascade_factors = l.cascade_factors
    ∧ (l.setFarPlane d).num_cascades = l.num_cascades
    ∧ (l.setFarPlane d).far_plane = l.far_plane
    ∧ (l.setFarPlane d).direction = l.direction
    ∧ (l.setFarPlane d).getVps camera_pos = l.getVps camera_pos
    ∧ (l.setFarPlane d).shadow_distance = d
    ∧ (l.setFarPlane d).shadow_projections
        = glmOrtho (-(d / 2)) (d / 2) (-(d / 2)) (d / 2) 0.1 d :=
  ⟨rfl, rfl, rfl, rfl, rfl, rfl, rfl, rfl⟩

/-- **C5, counterexample to the claim as stated.** After
`set_far_plane(200)` on a light built with shadow distance `100` and one
cascade, the cascades are exactly the old ones, the far plane `get_vps`
reads is still `100`, and the cascades differ from those of a light
constructed with distance `200` (their stored cascade far planes differ). -/
theorem C5_counterexample :
    ((DirectionalLight.new ⟨0, 0, 1⟩ ⟨1, 1, 1, 1⟩ 100 1).setFarPlane 200).cascades
      = (DirectionalLight.new ⟨0, 0, 1⟩ ⟨1, 1, 1, 1⟩ 100 1).cascades
    ∧ ((DirectionalLight.new ⟨0, 0, 1⟩ ⟨1, 1, 1, 1⟩ 100 1).setFarPlane 200).far_plane
        = 100
    ∧ ((DirectionalLight.new ⟨0, 0, 1⟩ ⟨1, 1, 1, 1⟩ 100 1).setFarPlane 200).cascades
        ≠ (DirectionalLight.new ⟨0, 0, 1⟩ ⟨1, 1, 1, 1⟩ 200 1).cascades := by
  refine ⟨rfl, rfl, ?_⟩
  intro h
  have hr : List.range 1 = [0] := rfl
  simp only [DirectionalLight.setFarPlane, DirectionalLight.new, genCascades,
    hr, List.map_cons, List.map_nil, List.cons.injEq, and_true] at h
  have h2 := congrArg Cascade.far_plane h
  norm_num [genCascade] at h2

/-- **C6 (as corrected).** Constructing a `DirectionalLight` with zero
cascades is total: with an empty index range no split division is executed,
and `gen_cascades` reads each split factor totally, substituting the
full-range factor `1.0` when an index is missing from the factor list — but
the light does not fall back to a default single full-range cascade: its
cascade and split-fraction lists are empty and `get_vps` yields no
matrices. -/
theorem C6_zero_cascades_empty (direction : Vec3) (color : Vec4) (d : ℝ)
    (camera_pos : Vec3) :
    (DirectionalLight.new direction color d 0).cascades = []
    ∧ (DirectionalLight.new direction color d 0).cascade_factors = []
    ∧ (DirectionalLight.new direction color d 0).getVps camera_pos = []
    ∧ (∀ (farP : ℝ) (num : ℕ) (factors : List ℝ) (i : ℕ), i < num →
        (genCascades farP num factors)[i]?
          = some (genCascade farP (factors.getD i 1))) := by
  refine ⟨rfl, rfl, rfl, ?_⟩
  intro farP num factors i hi
  rw [genCascades, List.getElem?_map, List.getElem?_range hi]
  rfl

theorem rotation_round_trip_exact (x y z : ℝ) (hunit : x * x + y * y + z * z = 1)
    (hnd : |z| ≤ 0.9999) :
    quatRotateVec3 (quatAngleAxis (Real.arccos z) (normalize3 ⟨-y, x, 0⟩))
        ⟨0, 0, 1⟩ = ⟨x, y, z⟩ := by
  obtain ⟨habs1, habs2⟩ := abs_le.mp hnd
  have hz1 : (-1 : ℝ) ≤ z := by linarith
  have hz2 : z ≤ 1 := by linarith
  have hzsq : 1 - z ^ 2 > 0 := by nlinarith
  simp only [quatRotateVec3, quatAngleAxis, normalize3, norm3, smul3, cross,
    vadd, dot3, vsub]
  rw [show -y * -y + x * x + 0 * 0 = 1 - z ^ 2 by nlinarith]
  set S := Real.sqrt (1 - z ^ 2) with hS
  set sh := Real.sin (Real.arccos z / 2) with hsh
  set ch := Real.cos (Real.arccos z / 2) with hch
  have hS2 : S ^ 2 = 1 - z ^ 2 := Real.sq_sqrt (le_of_lt hzsq)
  have hSpos : 0 < S := Real.sqrt_pos.mpr hzsq
  have hSne : S ≠ 0 := ne_of_gt hSpos
  have hcos : Real.cos (Real.arccos z) = z := Real.cos_arccos hz1 hz2
  have hsins : Real.sin (Real.arccos z) = S := Real.sin_arccos z
  have h2 : 2 * sh * ch = S := by
    have hdouble := Real.sin_two_mul (Real.arccos z / 2)
    rw [show 2 * (Real.arccos z / 2) = Real.arccos z by ring] at hdouble
    rw [hsins] at hdouble
    rw [hsh, hch]
    linarith [hdouble]
  have h3 : 1 - 2 * sh ^ 2 = z := by
    have hpy := Real.sin_sq_add_cos_sq (Real.arccos z / 2)
    have hc2 := Real.cos_two_mul (Real.arccos z / 2)
    rw [show 2 * (Real.arccos z / 2) = Real.arccos z by ring, hcos] at hc2
    rw [hsh]
    nlinarith [hpy, hc2]
  rw [Vec3.mk.injEq]
  refine ⟨?_, ?_, ?_⟩
  · field_simp
    linear_combination x * h2
  · field_simp
    linear_combination y * h2
  · field_simp
    linear_combination
      ((-2 + 4 * sh ^ 2 - 2 * sh ^ 2 * (1 - z ^ 2) + z)
          + 2 * (1 - z) * (1 - z ^ 2)
          + (1 - z) * (S ^ 2 - (1 - z ^ 2)) + z) * hS2
        + (-(1 - z ^ 2) * z ^ 2 - (1 - z ^ 2) + 2 * S ^ 2) * h3
        + (-2 * S ^ 2 * sh ^ 2) * hunit

/-- **C8.** For every unit direction vector, the rotation quaternion the
directional light computes from the direction — the computation shared by
`DirectionalLight::new` and `set_direction`, both of which store exactly this
quaternion as the transform rotation — when applied to the reference axis
`+Z` by glm's quaternion rotation, reproduces the original direction within
a small numeric tolerance: the squared error is at most `0.0002`
(about `0.014` in norm; it is exactly `0` outside the degenerate band),
including the parallel and anti-parallel cases, which are handled by the
identity rotation or a 180-degree rotation about `+X` instead of a
degenerate cross product. -/
theorem C8_rotation_round_trip (dir : Vec3) (hunit : dot3 dir dir = 1)
    (color : Vec4) (d : ℝ) (n : ℕ) (l : DirectionalLight) :
    dot3 (vsub (quatRotateVec3 (rotationFromDirection dir) ⟨0, 0, 1⟩) dir)
        (vsub (quatRotateVec3 (rotationFromDirection dir) ⟨0, 0, 1⟩) dir)
      ≤ 0.0002
    ∧ (DirectionalLight.new dir color d n).transform.rotation
        = rotationFromDirection dir
    ∧ (l.setDirection dir).transform.rotation = rotationFromDirection dir := by
  refine ⟨?_, rfl, rfl⟩
  obtain ⟨x, y, z⟩ := dir
  have hu : x * x + y * y + z * z = 1 := by simpa [dot3] using hunit
  by_cases hdeg : |dot3 (⟨x, y, z⟩ : Vec3) ⟨0, 0, 1⟩| > 0.9999
  · have hz : |z| > 0.9999 := by simpa [dot3] using hdeg
    by_cases hzpos : (Vec3.mk x y z).z > 0
    · have hz' : z > 0.9999 := by
        have hzp : (0 : ℝ) < z := hzpos
        rcases abs_cases z with ⟨he, _⟩ | ⟨_, hneg⟩
        · rw [he] at hz; exact hz
        · linarith
      rw [rotationFromDirection, if_pos hdeg, if_pos hzpos]
      simp only [quatRotateVec3, quatIdentity, cross, vadd, smul3, vsub, dot3]
      nlinarith [hu, hz']
    · have hz' : z < -0.9999 := by
        have hzp : ¬ (0 : ℝ) < z := hzpos
        rcases abs_cases z with ⟨he, hnn⟩ | ⟨hne, _⟩
        · rw [he] at hz
          exact absurd (by linarith : (0 : ℝ) < z) hzp
        · rw [hne] at hz
          linarith
      rw [rotationFromDirection, if_pos hdeg, if_neg hzpos]
      simp only [quatAngleAxis, quatRotateVec3, cross, vadd, smul3, vsub, dot3,
        Real.cos_pi_div_two, Real.sin_pi_div_two]
      nlinarith [hu, hz']
  · have hz : |z| ≤ 0.9999 := by
      have := not_lt.mp hdeg
      simpa [dot3] using this
    rw [rotationFromDirection, if_neg hdeg]
    have hdot : dot3 (⟨0, 0, 1⟩ : Vec3) ⟨x, y, z⟩ = z := by norm_num [dot3]
    have hcross : cross ⟨0, 0, 1⟩ ⟨x, y, z⟩ = ⟨-y, x, 0⟩ := by
      simp only [cross]
      norm_num
    rw [hdot, hcross, rotation_round_trip_exact x y z hu hz]
    norm_num [vsub, dot3]

/-- **C8, witness.** The round-trip bound and the stored-rotation equalities
at the concrete unit direction `+Z` (the parallel degenerate case), with a
concrete light. -/
theorem C8_witness :
    dot3 (⟨0, 0, 1⟩ : Vec3) ⟨0, 0, 1⟩ = 1
    ∧ (dot3
        (vsub (quatRotateVec3 (rotationFromDirection ⟨0, 0, 1⟩) ⟨0, 0, 1⟩)
          ⟨0, 0, 1⟩)
        (vsub (quatRotateVec3 (rotationFromDirection ⟨0, 0, 1⟩) ⟨0, 0, 1⟩)
          ⟨0, 0, 1⟩)
      ≤ 0.0002
    ∧ (DirectionalLight.new ⟨0, 0, 1⟩ ⟨1, 1, 1, 1⟩ 100 1).transform.rotation
        = rotationFromDirection ⟨0, 0, 1⟩
    ∧ ((DirectionalLight.new ⟨0, 0, 1⟩ ⟨1, 1, 1, 1⟩ 100 1).setDirection
          ⟨0, 0, 1⟩).transform.rotation = rotationFromDirection ⟨0, 0, 1⟩) :=
  ⟨by norm_num [dot3],
    C8_rotation_round_trip ⟨0, 0, 1⟩ (by norm_num [dot3]) ⟨1, 1, 1, 1⟩ 100 1
      (DirectionalLight.new ⟨0, 0, 1⟩ ⟨1, 1, 1, 1⟩ 100 1)⟩

/-- **C6, counterexample to the claim as stated.** With zero cascades the
cascade list is empty, not a single default full-range cascade. -/
theorem C6_counterexample :
    (DirectionalLight.new ⟨0, 0, 1⟩ ⟨1, 1, 1, 1⟩ 100 0).cascades.length = 0
    ∧ (DirectionalLight.new ⟨0, 0, 1⟩ ⟨1, 1, 1, 1⟩ 100 0).cascades.length ≠ 1 := by
  refine ⟨rfl, ?_⟩
  intro h
  rw [show (DirectionalLight.new ⟨0, 0, 1⟩ ⟨1, 1, 1, 1⟩ 100 0).cascades.length = 0
    from rfl] at h
  cases h

end

end Quaturn
